import Mathlib

/-!
Verification of the `linux-notes` scripts.

`CountWords` embeds `scripts/count_words.py`.  The central function
`k_most_frequent_words_minheap` keeps a `heapq` min-heap of `(freq, word)`
pairs.  Python's `heapq` compares tuples lexicographically and its observable
behaviour — `heap[0]` is the minimum element and successive `heappop`s return
elements in nondecreasing order — is modelled here by keeping the heap as a
list sorted by that lexicographic order (`heappush` is ordered insertion,
`heapreplace` drops the head and does an ordered insertion, and the final
drain loop returns the sorted list itself).  Counts are `Nat` (the source
builds them with `collections.Counter`), `k` is `Int` as in Python, and the
frequency dict is an association list in iteration order.
-/

namespace CountWords

/-- A heap entry exactly as pushed by the source: the tuple `(freq, word)`. -/
abbrev HeapEntry := Nat × String

/-- Python's tuple comparison on `(freq, word)`: lexicographic, frequency
first, then the word. -/
def entryLe (a b : HeapEntry) : Prop :=
  a.1 < b.1 ∨ (a.1 = b.1 ∧ a.2 ≤ b.2)

instance : DecidableRel entryLe := fun a b =>
  inferInstanceAs (Decidable (a.1 < b.1 ∨ (a.1 = b.1 ∧ a.2 ≤ b.2)))

instance : IsTotal HeapEntry entryLe where
  total a b := by
    rcases lt_trichotomy a.1 b.1 with h | h | h
    · exact Or.inl (Or.inl h)
    · rcases le_total a.2 b.2 with h2 | h2
      · exact Or.inl (Or.inr ⟨h, h2⟩)
      · exact Or.inr (Or.inr ⟨h.symm, h2⟩)
    · exact Or.inr (Or.inl h)

instance : IsTrans HeapEntry entryLe where
  trans a b c hab hbc := by
    rcases hab with h1 | ⟨e1, s1⟩
    · rcases hbc with h2 | ⟨e2, _⟩
      · exact Or.inl (h1.trans h2)
      · exact Or.inl (e2 ▸ h1)
    · rcases hbc with h2 | ⟨e2, s2⟩
      · exact Or.inl (e1 ▸ h2)
      · exact Or.inr ⟨e1.trans e2, s1.trans s2⟩

instance : IsAntisymm HeapEntry entryLe where
  antisymm a b hab hba := by
    rcases hab with h1 | ⟨e1, s1⟩
    · rcases hba with h2 | ⟨e2, _⟩
      · exact absurd (h1.trans h2) (lt_irrefl _)
      · exact absurd h1 (e2 ▸ lt_irrefl _)
    · rcases hba with h2 | ⟨e2, s2⟩
      · exact absurd h2 (e1 ▸ lt_irrefl _)
      · exact Prod.ext e1 (le_antisymm s1 s2)

/-- `heapq.heappush(min_heap, e)`: the heap keeps its elements in sorted
order, so a push is an ordered insertion. -/
def heapPush (e : HeapEntry) (heap : List HeapEntry) : List HeapEntry :=
  List.orderedInsert entryLe e heap

/-- One iteration of the loop over `word_freq.items()` in
`k_most_frequent_words_minheap` (source lines 74-81): push while the heap
has fewer than `k` elements, otherwise replace the minimum exactly when the
incoming frequency is strictly greater than `min_heap[0][0]`.  The `[]` case
of a full heap is unreachable for `k > 0` and leaves the heap unchanged. -/
def heapStep (k : Int) (heap : List HeapEntry) (p : String × Nat) :
    List HeapEntry :=
  if (heap.length : Int) < k then
    heapPush (p.2, p.1) heap
  else
    match heap with
    | [] => []
    | m :: rest => if m.1 < p.2 then heapPush (p.2, p.1) rest else m :: rest

/-- `k_most_frequent_words_minheap(word_freq, k)` (source lines 55-91):
return `[]` for `k <= 0`; otherwise fold the heap step over the frequency
pairs, then drain the heap (which yields the entries in ascending
`(freq, word)` order, i.e. the sorted heap itself), emitting `(word, freq)`
pairs, and reverse. -/
def k_most_frequent_words_minheap (word_freq : List (String × Nat)) (k : Int) :
    List (String × Nat) :=
  if k ≤ 0 then []
  else ((word_freq.foldl (heapStep k) []).map (fun e => (e.2, e.1))).reverse

/-- The selection-loop invariant behind claim C1: a pair `(w, c)` that has
already been processed is either still in the heap, or the heap is full and
every count in the heap is at least `c`. -/
def inOrSmall (k : Int) (c : Nat) (w : String) (h : List HeapEntry) : Prop :=
  (c, w) ∈ h ∨ (¬ ((h.length : Int) < k) ∧ ∀ e ∈ h, c ≤ e.1)

/-- The replace-or-keep branch of the selection loop, viewed on the sorted
list of heap counts only (the source compares only `min_heap[0][0]` with the
incoming frequency). -/
def step2 (cs : List Nat) (x : Nat) : List Nat :=
  match cs with
  | [] => []
  | m :: rest => if m < x then List.orderedInsert (· ≤ ·) x rest else m :: rest

/-- One selection-loop iteration viewed on the sorted list of heap counts. -/
def countStep (k : Int) (cs : List Nat) (f : Nat) : List Nat :=
  if (cs.length : Int) < k then List.orderedInsert (· ≤ ·) f cs
  else step2 cs f

/-- The character class `[a-zA-Z]` of the regular expression on source line
21. -/
def isEnglishLetter (c : Char) : Bool :=
  (decide ('a' ≤ c) && decide (c ≤ 'z')) ||
    (decide ('A' ≤ c) && decide (c ≤ 'Z'))

/-- `clean_word` (source lines 18-22): `re.sub(r'[^a-zA-Z]', '', word)`
removes every character outside `[a-zA-Z]`, then `.lower()` lowercases each
remaining character; the two passes over the string are a filter followed by
a map over the character list. -/
def clean_word (word : String) : String :=
  String.mk ((word.data.filter fun c => isEnglishLetter c).map Char.toLower)

/-- The word loop of `read_words_from_file` (source lines 33-37) on the
whitespace-split raw words of the file: each word is cleaned and kept only
when the cleaned result is non-empty.  The surrounding file I/O and error
reporting are not modelled. -/
def read_words_from_file : List String → List String
  | [] => []
  | w :: ws =>
    if clean_word w = "" then read_words_from_file ws
    else clean_word w :: read_words_from_file ws

end CountWords

/-!
`Dinosaur` embeds `scripts/dinosaur.py` and `scripts/dinosaur_interview.py`.
A CSV row (as produced by `csv.DictReader`) is an association list from
column name to cell text.  Python's `float(...)` is floating-point text
parsing and is abstracted by a `parseFloat : String → Option α` parameter
(`some` on success, `none` for `ValueError`); the speed formula
`((stride/leg) - 1) * sqrt(leg * g)` is floating-point arithmetic and is
abstracted by a `speed_of` parameter into a linearly ordered type, which is
all the join/filter/sort skeleton observes.
-/

namespace Dinosaur

/-- A CSV row: association list from column name to cell text. -/
abbrev Row := List (String × String)

/-- Python `str.strip()`: drop leading and trailing whitespace. -/
def strip (s : String) : String :=
  String.mk (((s.data.dropWhile Char.isWhitespace).reverse.dropWhile
    Char.isWhitespace).reverse)

/-- Python `str.upper()`. -/
def str_upper (s : String) : String := String.mk (s.data.map Char.toUpper)

/-- Python `str.lower()`. -/
def str_lower (s : String) : String := String.mk (s.data.map Char.toLower)

/-- `{k.strip().upper(): v.strip() for k, v in row.items()}` (dinosaur.py
lines 77 and 125); `DictReader` rows have distinct keys. -/
def normalize_row (row : Row) : Row :=
  row.map (fun kv => (str_upper (strip kv.1), strip kv.2))

/-- `_find_column` (dinosaur.py lines 163-168): the first candidate column
name present in the row, if any. -/
def find_column (row : Row) (possible_names : List String) : Option String :=
  possible_names.find? (fun n => (row.lookup n).isSome)

/-- The cell under the first present candidate column, when one exists. -/
def col_value (row : Row) (possible_names : List String) : Option String :=
  match find_column row possible_names with
  | none => none
  | some key => row.lookup key

/-- One row of `DinosaurSpeedCalculator.load_dataset1` (dinosaur.py lines
75-108): normalize the row, locate the name, leg-length and diet columns
(warning printed and row skipped when one is missing), parse the leg length
(warning printed and row skipped on `ValueError`), and yield the
`(name, leg_length, diet)` entry that the source stores into
`self.dinosaurs`. -/
def parseRow1 {α : Type} (parseFloat : String → Option α) (row : Row) :
    Option (String × α × String) :=
  let nrow := normalize_row row
  match col_value nrow ["NAME", "DINOSAUR", "SPECIES"],
      col_value nrow ["LEG_LENGTH", "LEG LENGTH", "LGLENGTH"],
      col_value nrow ["DIET", "FOOD", "EATING"] with
  | some name, some legStr, some diet =>
    match parseFloat legStr with
    | some leg => some (name, leg, diet)
    | none => none
  | _, _, _ => none

/-- The successfully loaded rows of dataset 1, in row order: rows with
missing required columns or an unparsable number are skipped (`continue`)
and processing goes on with the remaining rows. -/
def load_dataset1 {α : Type} (parseFloat : String → Option α)
    (rows : List Row) : List (String × α × String) :=
  rows.filterMap (parseRow1 parseFloat)

/-- One row of `DinosaurSpeedCalculator.load_dataset2` (dinosaur.py lines
123-156): like `parseRow1` but for the name, stride-length and stance
columns. -/
def parseRow2 {α : Type} (parseFloat : String → Option α) (row : Row) :
    Option (String × α × String) :=
  let nrow := normalize_row row
  match col_value nrow ["NAME", "DINOSAUR", "SPECIES"],
      col_value nrow ["STRIDE_LENGTH", "STRIDE LENGTH", "STRIDE"],
      col_value nrow ["STANCE", "POSTURE", "POSITION"] with
  | some name, some strideStr, some stance =>
    match parseFloat strideStr with
    | some stride => some (name, stride, stance)
    | none => none
  | _, _, _ => none

/-- The successfully loaded rows of dataset 2, in row order. -/
def load_dataset2 {α : Type} (parseFloat : String → Option α)
    (rows : List Row) : List (String × α × String) :=
  rows.filterMap (parseRow2 parseFloat)

/-- Python-dict insertion: overwrite the value at an existing key (keeping
its position) or append a new binding at the end. -/
def dictInsert (d : List (String × Row)) (k : String) (v : Row) :
    List (String × Row) :=
  if d.any (fun kv => kv.1 == k) then
    d.map (fun kv => if kv.1 == k then (k, v) else kv)
  else d ++ [(k, v)]

/-- `read_csv_to_dict` (dinosaur_interview.py lines 16-24): build a dict
keyed by `row[key_column]`.  A row without the key column raises `KeyError`
(modelled as `Except.error` carrying the missing key), which aborts the
whole read; this loader has no per-row validation or skipping. -/
def read_csv_to_dict (rows : List Row) (key_column : String) :
    Except String (List (String × Row)) :=
  rows.foldlM
    (fun data row =>
      match row.lookup key_column with
      | none => Except.error key_column
      | some key => Except.ok (dictInsert data key row))
    []

/-- The join-and-filter loop of `solve_dinosaur_problem`
(dinosaur_interview.py lines 43-53): for each entry of dataset 1 whose name
is also in dataset 2, read `LEG_LENGTH`, `STRIDE_LENGTH` and `STANCE`
(a missing field raises `KeyError` and a failed `float` raises `ValueError`,
both aborting the whole computation), and keep `(name, speed)` when the
stance lowercases to `"bipedal"`. -/
def collect_bipedal {α β : Type} (parseFloat : String → Option α)
    (speed_of : α → α → β) (d2 : List (String × Row)) :
    List (String × Row) → Except String (List (String × β))
  | [] => Except.ok []
  | (name, row1) :: rest =>
    match d2.lookup name with
    | none => collect_bipedal parseFloat speed_of d2 rest
    | some row2 =>
      match row1.lookup "LEG_LENGTH" with
      | none => Except.error "LEG_LENGTH"
      | some legStr =>
        match parseFloat legStr with
        | none => Except.error legStr
        | some leg =>
          match row2.lookup "STRIDE_LENGTH" with
          | none => Except.error "STRIDE_LENGTH"
          | some strideStr =>
            match parseFloat strideStr with
            | none => Except.error strideStr
            | some stride =>
              match row2.lookup "STANCE" with
              | none => Except.error "STANCE"
              | some stance =>
                match collect_bipedal parseFloat speed_of d2 rest with
                | Except.error e => Except.error e
                | Except.ok tail =>
                  Except.ok
                    (if str_lower stance = "bipedal" then
                      (name, speed_of leg stride) :: tail
                    else tail)

/-- `solve_dinosaur_problem` (dinosaur_interview.py lines 33-59): read both
CSVs into name-keyed dicts, inner-join on NAME, filter bipedal, sort by
speed descending and return the names.  The source uses Python's stable
`list.sort(key=..., reverse=True)`; the sort is modelled by a stable
insertion sort on the descending-speed relation, and tie order among equal
speeds is immaterial to the claims proved here. -/
def solve_dinosaur_problem {α β : Type} [LinearOrder β]
    (parseFloat : String → Option α) (speed_of : α → α → β)
    (rows1 rows2 : List Row) : Except String (List String) :=
  match read_csv_to_dict rows1 "NAME" with
  | Except.error e => Except.error e
  | Except.ok d1 =>
    match read_csv_to_dict rows2 "NAME" with
    | Except.error e => Except.error e
    | Except.ok d2 =>
      match collect_bipedal parseFloat speed_of d2 d1 with
      | Except.error e => Except.error e
      | Except.ok speeds =>
        Except.ok
          ((List.insertionSort (fun x y : String × β => y.2 ≤ x.2)
            speeds).map Prod.fst)

end Dinosaur

/-! ### Basic heap lemmas -/

namespace CountWords

lemma heapPush_perm (e : HeapEntry) (h : List HeapEntry) :
    (heapPush e h).Perm (e :: h) :=
  List.perm_orderedInsert entryLe e h

lemma heapPush_sorted {h : List HeapEntry} (e : HeapEntry)
    (hs : List.Sorted entryLe h) : List.Sorted entryLe (heapPush e h) :=
  hs.orderedInsert e h

lemma heapPush_length (e : HeapEntry) (h : List HeapEntry) :
    (heapPush e h).length = h.length + 1 :=
  List.orderedInsert_length entryLe h e

lemma heapStep_of_lt {k : Int} {h : List HeapEntry} {p : String × Nat}
    (hlt : (h.length : Int) < k) : heapStep k h p = heapPush (p.2, p.1) h := by
  unfold heapStep
  rw [if_pos hlt]

lemma heapStep_nil_of_ge {k : Int} {p : String × Nat}
    (hge : ¬ ((0 : Int) < k)) : heapStep k [] p = [] := by
  unfold heapStep
  rw [if_neg (by simpa using hge)]

lemma heapStep_replace {k : Int} {m : HeapEntry} {rest : List HeapEntry}
    {p : String × Nat} (hge : ¬ (((m :: rest).length : Int) < k))
    (hlt : m.1 < p.2) : heapStep k (m :: rest) p = heapPush (p.2, p.1) rest := by
  unfold heapStep
  rw [if_neg hge]
  exact if_pos hlt

lemma heapStep_keep {k : Int} {m : HeapEntry} {rest : List HeapEntry}
    {p : String × Nat} (hge : ¬ (((m :: rest).length : Int) < k))
    (hnlt : ¬ m.1 < p.2) : heapStep k (m :: rest) p = m :: rest := by
  unfold heapStep
  rw [if_neg hge]
  exact if_neg hnlt

lemma heapStep_sorted {k : Int} {h : List HeapEntry} {p : String × Nat}
    (hs : List.Sorted entryLe h) : List.Sorted entryLe (heapStep k h p) := by
  by_cases hlt : (h.length : Int) < k
  · rw [heapStep_of_lt hlt]; exact heapPush_sorted _ hs
  · cases h with
    | nil =>
      rw [heapStep_nil_of_ge (by simpa using hlt)]
      exact List.sorted_nil
    | cons m rest =>
      by_cases hm : m.1 < p.2
      · rw [heapStep_replace hlt hm]
        exact heapPush_sorted _ (List.sorted_cons.mp hs).2
      · rw [heapStep_keep hlt hm]; exact hs

lemma heapStep_length_le {k : Int} {h : List HeapEntry} {p : String × Nat}
    (hl : (h.length : Int) ≤ k) : ((heapStep k h p).length : Int) ≤ k := by
  by_cases hlt : (h.length : Int) < k
  · rw [heapStep_of_lt hlt, heapPush_length]
    push_cast
    omega
  · cases h with
    | nil => rw [heapStep_nil_of_ge (by simpa using hlt)]; simpa using hl
    | cons m rest =>
      by_cases hm : m.1 < p.2
      · rw [heapStep_replace hlt hm, heapPush_length]
        simpa using hl
      · rw [heapStep_keep hlt hm]; exact hl

lemma foldl_heapStep_sorted (k : Int) :
    ∀ (F : List (String × Nat)) (h : List HeapEntry),
      List.Sorted entryLe h → List.Sorted entryLe (F.foldl (heapStep k) h)
  | [], _, hs => hs
  | _ :: rest, h, hs =>
    foldl_heapStep_sorted k rest (heapStep k h _) (heapStep_sorted hs)

lemma foldl_heapStep_length_le (k : Int) :
    ∀ (F : List (String × Nat)) (h : List HeapEntry),
      (h.length : Int) ≤ k → ((F.foldl (heapStep k) h).length : Int) ≤ k
  | [], _, hl => hl
  | _ :: rest, h, hl =>
    foldl_heapStep_length_le k rest (heapStep k h _) (heapStep_length_le hl)

/-- When `k` bounds the number of pairs still to process plus the current
heap size, every pair takes the push branch, so the final heap is a
permutation of the processed pairs (swapped) on top of the initial heap. -/
lemma foldl_heapStep_all_inserted (k : Int) :
    ∀ (F : List (String × Nat)) (h : List HeapEntry),
      ((h.length + F.length : Nat) : Int) ≤ k →
      (F.foldl (heapStep k) h).Perm ((F.map (fun p => (p.2, p.1))) ++ h)
  | [], h, _ => by simp
  | p :: rest, h, hle => by
    have hlt : (h.length : Int) < k := by
      simp only [List.length_cons] at hle
      push_cast at hle ⊢
      omega
    rw [List.foldl_cons, heapStep_of_lt hlt]
    have ih := foldl_heapStep_all_inserted k rest (heapPush (p.2, p.1) h)
      (by
        rw [heapPush_length]
        simp only [List.length_cons] at hle
        push_cast at hle ⊢
        omega)
    refine ih.trans ?_
    refine ((heapPush_perm (p.2, p.1) h).append_left _).trans ?_
    exact List.perm_middle

lemma entryLe_fst_le {a b : HeapEntry} (h : entryLe a b) : a.1 ≤ b.1 := by
  rcases h with h | ⟨h, _⟩
  · exact le_of_lt h
  · exact le_of_eq h

lemma heapStep_pres_inOrSmall {k : Int} {c : Nat} {w : String}
    {h : List HeapEntry} {p : String × Nat} (hs : List.Sorted entryLe h)
    (hin : inOrSmall k c w h) : inOrSmall k c w (heapStep k h p) := by
  by_cases hlt : (h.length : Int) < k
  · rw [heapStep_of_lt hlt]
    rcases hin with hmem | ⟨hfull, _⟩
    · exact Or.inl ((heapPush_perm _ _).mem_iff.mpr (List.mem_cons_of_mem _ hmem))
    · exact absurd hlt hfull
  · cases h with
    | nil =>
      rw [heapStep_nil_of_ge (by simpa using hlt)]
      exact hin
    | cons m rest =>
      have hrel := (List.sorted_cons.mp hs).1
      by_cases hm : m.1 < p.2
      · rw [heapStep_replace hlt hm]
        have hlen : ¬ (((heapPush (p.2, p.1) rest).length : Int) < k) := by
          rw [heapPush_length]
          simpa using hlt
        have hpushmem : ∀ e ∈ heapPush (p.2, p.1) rest,
            e = (p.2, p.1) ∨ e ∈ rest := fun e he =>
          List.mem_cons.mp ((heapPush_perm _ _).mem_iff.mp he)
        rcases hin with hmem | ⟨_, hall⟩
        · rcases List.mem_cons.mp hmem with heq | hmem2
          · -- `(c, w)` was the evicted minimum `m`
            have hc : c = m.1 := by rw [← heq]
            refine Or.inr ⟨hlen, ?_⟩
            intro e he
            rcases hpushmem e he with rfl | he2
            · exact hc ▸ le_of_lt hm
            · exact hc ▸ entryLe_fst_le (hrel e he2)
          · exact Or.inl ((heapPush_perm _ _).mem_iff.mpr
              (List.mem_cons_of_mem _ hmem2))
        · refine Or.inr ⟨hlen, ?_⟩
          intro e he
          rcases hpushmem e he with rfl | he2
          · exact le_of_lt (lt_of_le_of_lt (hall m (List.mem_cons_self m rest)) hm)
          · exact hall e (List.mem_cons_of_mem _ he2)
      · rw [heapStep_keep hlt hm]
        exact hin

lemma heapStep_estab_inOrSmall {k : Int} {h : List HeapEntry}
    (p : String × Nat) (hs : List.Sorted entryLe h) :
    inOrSmall k p.2 p.1 (heapStep k h p) := by
  by_cases hlt : (h.length : Int) < k
  · rw [heapStep_of_lt hlt]
    exact Or.inl ((heapPush_perm _ _).mem_iff.mpr (List.mem_cons_self _ _))
  · cases h with
    | nil =>
      rw [heapStep_nil_of_ge (by simpa using hlt)]
      exact Or.inr ⟨by simpa using hlt, by simp⟩
    | cons m rest =>
      by_cases hm : m.1 < p.2
      · rw [heapStep_replace hlt hm]
        exact Or.inl ((heapPush_perm _ _).mem_iff.mpr (List.mem_cons_self _ _))
      · rw [heapStep_keep hlt hm]
        refine Or.inr ⟨hlt, ?_⟩
        intro e he
        rcases List.mem_cons.mp he with rfl | he2
        · exact not_lt.mp hm
        · exact le_trans (not_lt.mp hm)
            (entryLe_fst_le ((List.sorted_cons.mp hs).1 e he2))

lemma foldl_pres_inOrSmall (k : Int) (c : Nat) (w : String) :
    ∀ (F : List (String × Nat)) (h : List HeapEntry), List.Sorted entryLe h →
      inOrSmall k c w h → inOrSmall k c w (F.foldl (heapStep k) h)
  | [], _, _, hin => hin
  | _ :: rest, _, hs, hin =>
    foldl_pres_inOrSmall k c w rest _ (heapStep_sorted hs)
      (heapStep_pres_inOrSmall hs hin)

lemma foldl_estab_inOrSmall (k : Int) :
    ∀ (F : List (String × Nat)) (h : List HeapEntry), List.Sorted entryLe h →
      ∀ q ∈ F, inOrSmall k q.2 q.1 (F.foldl (heapStep k) h)
  | [], _, _, q, hq => absurd hq (List.not_mem_nil q)
  | p :: rest, h, hs, q, hq => by
    rcases List.mem_cons.mp hq with rfl | hq2
    · rw [List.foldl_cons]
      exact foldl_pres_inOrSmall k q.2 q.1 rest _ (heapStep_sorted hs)
        (heapStep_estab_inOrSmall q hs)
    · rw [List.foldl_cons]
      exact foldl_estab_inOrSmall k rest _ (heapStep_sorted hs) q hq2

/-- Membership in the result corresponds to membership of the swapped pair
in the final heap. -/
lemma mem_result_iff {F : List (String × Nat)} {k : Int} (hk : ¬ k ≤ 0)
    (x : String × Nat) :
    x ∈ k_most_frequent_words_minheap F k ↔
      (x.2, x.1) ∈ F.foldl (heapStep k) [] := by
  rw [k_most_frequent_words_minheap, if_neg hk]
  rw [List.mem_reverse, List.mem_map]
  constructor
  · rintro ⟨e, he, rfl⟩
    exact he
  · intro hx
    exact ⟨(x.2, x.1), hx, rfl⟩

/-- Transport a pairwise property of the heap to the drained-and-reversed
result list of `(word, freq)` pairs. -/
lemma result_pairwise_of_heap {R : (String × Nat) → (String × Nat) → Prop}
    {heap : List HeapEntry}
    (hp : heap.Pairwise (fun a b => R (b.2, b.1) (a.2, a.1))) :
    ((heap.map (fun e => (e.2, e.1))).reverse).Pairwise R := by
  rw [List.pairwise_reverse, List.pairwise_map]
  exact hp

/-- A lexicographically sorted heap drains to a result sorted by count
descending. -/
lemma heap_result_sorted_desc {heap : List HeapEntry}
    (hs : List.Sorted entryLe heap) :
    ((heap.map (fun e => (e.2, e.1))).reverse).Pairwise
      (fun a b : String × Nat => b.2 ≤ a.2) := by
  apply result_pairwise_of_heap
  refine List.Pairwise.imp ?_ hs
  intro a b hab
  rcases hab with h | ⟨h, _⟩
  · exact le_of_lt h
  · exact le_of_eq h

/-! ### Claim C4 -/

/-- C4: for every frequency mapping `F` and every integer `k ≤ 0`,
`k_most_frequent_words_minheap F k` returns the empty sequence (the guard on
source line 69 returns `[]`, raising no error). -/
theorem c4_nonpositive_k_empty (F : List (String × Nat)) (k : Int)
    (hk : k ≤ 0) : k_most_frequent_words_minheap F k = [] := by
  simp [k_most_frequent_words_minheap, hk]

theorem c4_witness :
    (0 : Int) ≤ 0 ∧ k_most_frequent_words_minheap [("a", 1)] 0 = [] :=
  ⟨by decide, c4_nonpositive_k_empty [("a", 1)] 0 (by decide)⟩

/-! ### Claim C5 -/

/-- C5: one step of the selection loop with a full candidate set (`k`
elements, minimum `m` first) leaves the heap unchanged whenever the incoming
count is less than or equal to the current minimum count: the comparison on
source line 78 is strict, so a tie never evicts an existing candidate. -/
theorem c5_tie_never_evicts (k : Int) (m : HeapEntry) (rest : List HeapEntry)
    (p : String × Nat) (hlen : (((m :: rest).length : Nat) : Int) = k)
    (hle : p.2 ≤ m.1) : heapStep k (m :: rest) p = m :: rest :=
  heapStep_keep (by omega) (not_lt.mpr hle)

theorem c5_witness :
    (((([((2 : Nat), "alpha")] : List HeapEntry).length : Nat) : Int) = 1 ∧
        (2 : Nat) ≤ 2) ∧
      heapStep 1 [((2 : Nat), "alpha")] ("beta", (2 : Nat)) =
        [((2 : Nat), "alpha")] :=
  ⟨⟨by decide, by decide⟩,
    c5_tie_never_evicts 1 ((2 : Nat), "alpha") [] ("beta", (2 : Nat))
      (by decide) (by decide)⟩

/-! ### Claim C3 (corrected) -/

/-- C3 as stated is false: it quantifies over every integer `k`, but for
`k = -1` the function returns `[]`, whose length `0` is not at most `-1`. -/
theorem c3_counterexample :
    ¬ (((k_most_frequent_words_minheap [] (-1)).length : Int) ≤ -1) := by
  decide

/-- C3 amended: for every frequency mapping `F` and every integer `k`, the
result has length at most `max k 0` and is sorted by count descending. -/
theorem c3_amended_length_and_sorted (F : List (String × Nat)) (k : Int) :
    ((k_most_frequent_words_minheap F k).length : Int) ≤ max k 0 ∧
      (k_most_frequent_words_minheap F k).Pairwise
        (fun a b : String × Nat => b.2 ≤ a.2) := by
  by_cases hk : k ≤ 0
  · constructor
    · simp [k_most_frequent_words_minheap, hk]
    · simp [k_most_frequent_words_minheap, hk]
  · constructor
    · have hlen := foldl_heapStep_length_le k F [] (by simp; omega)
      rw [k_most_frequent_words_minheap, if_neg hk]
      rw [List.length_reverse, List.length_map]
      exact le_trans hlen (le_max_left _ _)
    · rw [k_most_frequent_words_minheap, if_neg hk]
      exact heap_result_sorted_desc (foldl_heapStep_sorted k F [] List.sorted_nil)

/-! ### Claim C2 -/

/-- C2: whenever `k` is at least the number of distinct tokens, the function
returns all entries of `F`, sorted by count descending. -/
theorem c2_k_ge_card_returns_all_sorted (F : List (String × Nat)) (k : Int)
    (hk : (F.length : Int) ≤ k) :
    (k_most_frequent_words_minheap F k).Perm F ∧
      (k_most_frequent_words_minheap F k).Pairwise
        (fun a b : String × Nat => b.2 ≤ a.2) := by
  by_cases hk0 : k ≤ 0
  · have hF : F = [] := by
      cases F with
      | nil => rfl
      | cons a l => simp at hk; omega
    subst hF
    simp [k_most_frequent_words_minheap, hk0]
  · constructor
    · rw [k_most_frequent_words_minheap, if_neg hk0]
      have hperm := foldl_heapStep_all_inserted k F [] (by simpa using hk)
      have h2 : ((F.foldl (heapStep k) []).map
          (fun e : HeapEntry => (e.2, e.1))).Perm F := by
        have h3 := hperm.map (fun e : HeapEntry => (e.2, e.1))
        simp only [List.map_map, List.append_nil] at h3
        have h4 : ((fun e : HeapEntry => (e.2, e.1)) ∘
            fun p : String × Nat => (p.2, p.1)) = id := by
          funext p
          rfl
        rw [h4, List.map_id] at h3
        exact h3
      exact (List.reverse_perm _).trans h2
    · rw [k_most_frequent_words_minheap, if_neg hk0]
      exact heap_result_sorted_desc (foldl_heapStep_sorted k F [] List.sorted_nil)

theorem c2_witness :
    (([(("a" : String), (2 : Nat)), ("b", 1)].length : Int) ≤ 2 ∧
        (k_most_frequent_words_minheap [("a", 2), ("b", 1)] 2).Perm
          [("a", 2), ("b", 1)]) ∧
      (k_most_frequent_words_minheap [("a", 2), ("b", 1)] 2).Pairwise
        (fun a b : String × Nat => b.2 ≤ a.2) :=
  ⟨⟨by decide,
      (c2_k_ge_card_returns_all_sorted [("a", 2), ("b", 1)] 2 (by decide)).1⟩,
    (c2_k_ge_card_returns_all_sorted [("a", 2), ("b", 1)] 2 (by decide)).2⟩

/-! ### Claim C9: multiset bound and distinct words in the heap -/

lemma heapStep_multiset_le (k : Int) (h : List HeapEntry) (p : String × Nat) :
    ((heapStep k h p : List HeapEntry) : Multiset HeapEntry) ≤
      (p.2, p.1) ::ₘ (h : Multiset HeapEntry) := by
  by_cases hlt : (h.length : Int) < k
  · rw [heapStep_of_lt hlt]
    exact le_of_eq ((Multiset.coe_eq_coe.mpr (heapPush_perm _ _)).trans
      (Multiset.cons_coe _ _).symm)
  · cases h with
    | nil =>
      rw [heapStep_nil_of_ge (by simpa using hlt)]
      simp
    | cons m rest =>
      by_cases hm : m.1 < p.2
      · rw [heapStep_replace hlt hm]
        have h1 : ((heapPush (p.2, p.1) rest : List HeapEntry) :
            Multiset HeapEntry) = (p.2, p.1) ::ₘ (rest : Multiset HeapEntry) :=
          (Multiset.coe_eq_coe.mpr (heapPush_perm _ _)).trans
            (Multiset.cons_coe _ _).symm
        rw [h1, ← Multiset.cons_coe]
        exact Multiset.cons_le_cons _ (Multiset.le_cons_self _ _)
      · rw [heapStep_keep hlt hm]
        exact Multiset.le_cons_self _ _

lemma foldl_heapStep_multiset_le (k : Int) :
    ∀ (F : List (String × Nat)) (h : List HeapEntry),
      ((F.foldl (heapStep k) h : List HeapEntry) : Multiset HeapEntry) ≤
        ((F.map (fun p => (p.2, p.1)) : List HeapEntry) : Multiset HeapEntry) +
          (h : Multiset HeapEntry)
  | [], h => by simp
  | p :: rest, h => by
    rw [List.foldl_cons]
    refine le_trans (foldl_heapStep_multiset_le k rest _) ?_
    have h2 := add_le_add_left (heapStep_multiset_le k h p)
      ((rest.map (fun p => (p.2, p.1)) : List HeapEntry) : Multiset HeapEntry)
    refine le_trans h2 (le_of_eq ?_)
    rw [List.map_cons, ← Multiset.cons_coe, Multiset.add_cons, Multiset.cons_add]

/-- With distinct tokens in `F`, the words in the final heap are distinct. -/
lemma heap_words_nodup {F : List (String × Nat)} (k : Int)
    (hnd : (F.map Prod.fst).Nodup) :
    ((F.foldl (heapStep k) []).map Prod.snd).Nodup := by
  have hle := foldl_heapStep_multiset_le k F []
  rw [Multiset.coe_nil, add_zero] at hle
  have hmap : Multiset.map Prod.snd
      ((F.foldl (heapStep k) [] : List HeapEntry) : Multiset HeapEntry) ≤
      Multiset.map Prod.snd
        ((F.map (fun p => (p.2, p.1)) : List HeapEntry) : Multiset HeapEntry) :=
    Multiset.map_le_map hle
  rw [Multiset.map_coe, Multiset.map_coe] at hmap
  have hrw : (F.map (fun p : String × Nat => (p.2, p.1))).map Prod.snd =
      F.map Prod.fst := by
    rw [List.map_map]
    rfl
  rw [hrw] at hmap
  exact Multiset.coe_nodup.mp
    (Multiset.nodup_of_le hmap (Multiset.coe_nodup.mpr hnd))

/-- A heap sorted by `entryLe` whose words are distinct is strictly sorted
in the lexicographic order on `(count, word)`. -/
lemma sorted_nodup_strict {heap : List HeapEntry}
    (hs : List.Sorted entryLe heap) (hnd : (heap.map Prod.snd).Nodup) :
    heap.Pairwise
      (fun a b : HeapEntry => a.1 < b.1 ∨ (a.1 = b.1 ∧ a.2 < b.2)) := by
  have h1 : heap.Pairwise (fun a b : HeapEntry => a.2 ≠ b.2) :=
    List.pairwise_map.mp hnd
  refine List.Pairwise.imp ?_ (hs.and h1)
  rintro a b ⟨hle, hne⟩
  rcases hle with h | ⟨h1', h2⟩
  · exact Or.inl h
  · exact Or.inr ⟨h1', lt_of_le_of_ne h2 hne⟩

/-- C9: for every frequency mapping (distinct tokens) and every `k > 0`, the
result is strictly descending in the lexicographic order on
`(count, token)`: among equal counts, tokens appear in descending
alphabetical order, deterministically. -/
theorem c9_strict_lex_descending (F : List (String × Nat)) (k : Int)
    (hk : 0 < k) (hnd : (F.map Prod.fst).Nodup) :
    (k_most_frequent_words_minheap F k).Pairwise
      (fun a b : String × Nat => b.2 < a.2 ∨ (b.2 = a.2 ∧ b.1 < a.1)) := by
  rw [k_most_frequent_words_minheap, if_neg (not_le.mpr hk)]
  apply result_pairwise_of_heap
  exact sorted_nodup_strict (foldl_heapStep_sorted k F [] List.sorted_nil)
    (heap_words_nodup k hnd)

theorem c9_witness :
    ((0 : Int) < 2 ∧
        ([(("apple" : String), (2 : Nat)), ("zebra", 2)].map Prod.fst).Nodup) ∧
      (k_most_frequent_words_minheap [("apple", 2), ("zebra", 2)] 2).Pairwise
        (fun a b : String × Nat => b.2 < a.2 ∨ (b.2 = a.2 ∧ b.1 < a.1)) :=
  ⟨⟨by decide, by decide⟩,
    c9_strict_lex_descending [("apple", 2), ("zebra", 2)] 2 (by decide)
      (by decide)⟩

/-! ### Claim C6: the count abstraction of the heap -/

lemma countStep_of_lt {k : Int} {cs : List Nat} {f : Nat}
    (h : (cs.length : Int) < k) :
    countStep k cs f = List.orderedInsert (· ≤ ·) f cs := by
  simp only [countStep]
  rw [if_pos h]

lemma countStep_of_ge {k : Int} {cs : List Nat} {f : Nat}
    (h : ¬ (cs.length : Int) < k) : countStep k cs f = step2 cs f := by
  simp only [countStep]
  rw [if_neg h]

lemma step2_length (cs : List Nat) (x : Nat) :
    (step2 cs x).length = cs.length := by
  cases cs with
  | nil => rfl
  | cons m rest =>
    simp only [step2]
    split
    · rw [List.orderedInsert_length]
      simp
    · rfl

lemma countStep_sorted {k : Int} {cs : List Nat} {f : Nat}
    (hs : List.Sorted (· ≤ ·) cs) :
    List.Sorted (· ≤ ·) (countStep k cs f) := by
  simp only [countStep]
  split
  · exact hs.orderedInsert f cs
  · cases cs with
    | nil => exact List.sorted_nil
    | cons m rest =>
      simp only [step2]
      split
      · exact (List.sorted_cons.mp hs).2.orderedInsert f rest
      · exact hs

lemma sorted_map_fst {h : List HeapEntry} (hs : List.Sorted entryLe h) :
    List.Sorted (· ≤ ·) (h.map Prod.fst) :=
  List.pairwise_map.mpr (hs.imp entryLe_fst_le)

lemma map_fst_heapPush (f : Nat) (w : String) {h : List HeapEntry}
    (hs : List.Sorted entryLe h) :
    (heapPush (f, w) h).map Prod.fst =
      List.orderedInsert (· ≤ ·) f (h.map Prod.fst) :=
  List.eq_of_perm_of_sorted
    (((heapPush_perm (f, w) h).map Prod.fst).trans
      (List.perm_orderedInsert _ f _).symm)
    (sorted_map_fst (heapPush_sorted _ hs))
    ((sorted_map_fst hs).orderedInsert f _)

lemma map_fst_heapStep {k : Int} {h : List HeapEntry} {p : String × Nat}
    (hs : List.Sorted entryLe h) :
    (heapStep k h p).map Prod.fst = countStep k (h.map Prod.fst) p.2 := by
  by_cases hlt : (h.length : Int) < k
  · rw [heapStep_of_lt hlt,
      countStep_of_lt (show ((h.map Prod.fst).length : Int) < k by
        simpa using hlt)]
    exact map_fst_heapPush p.2 p.1 hs
  · cases h with
    | nil =>
      rw [heapStep_nil_of_ge (by simpa using hlt)]
      rw [countStep_of_ge (by simpa using hlt)]
      rfl
    | cons m rest =>
      have hlen2 : ¬ ((((m :: rest).map Prod.fst).length : Int) < k) := by
        simpa using hlt
      rw [countStep_of_ge hlen2, List.map_cons]
      by_cases hm : m.1 < p.2
      · rw [heapStep_replace hlt hm]
        simp only [step2]
        rw [if_pos hm]
        exact map_fst_heapPush p.2 p.1 (List.sorted_cons.mp hs).2
      · rw [heapStep_keep hlt hm]
        simp only [step2]
        rw [if_neg hm]
        rfl

lemma map_fst_foldl (k : Int) :
    ∀ (F : List (String × Nat)) (h : List HeapEntry), List.Sorted entryLe h →
      (F.foldl (heapStep k) h).map Prod.fst =
        (F.map Prod.snd).foldl (countStep k) (h.map Prod.fst)
  | [], _, _ => rfl
  | p :: rest, h, hs => by
    rw [List.map_cons, List.foldl_cons, List.foldl_cons,
      map_fst_foldl k rest _ (heapStep_sorted hs), map_fst_heapStep hs]

lemma orderedInsert_comm {cs : List Nat} (hs : List.Sorted (· ≤ ·) cs)
    (f g : Nat) :
    List.orderedInsert (· ≤ ·) f (List.orderedInsert (· ≤ ·) g cs) =
      List.orderedInsert (· ≤ ·) g (List.orderedInsert (· ≤ ·) f cs) :=
  List.eq_of_perm_of_sorted
    ((List.perm_orderedInsert _ f _).trans
      (List.Perm.trans
        (List.Perm.trans ((List.perm_orderedInsert _ g cs).cons f)
          (List.Perm.trans (List.Perm.swap g f cs)
            ((List.perm_orderedInsert _ f cs).symm.cons g)))
        (List.perm_orderedInsert _ g _).symm))
    ((hs.orderedInsert g cs).orderedInsert f _)
    ((hs.orderedInsert f cs).orderedInsert g _)

lemma le_all_orderedInsert {m f : Nat} {rest : List Nat}
    (hrest : ∀ x ∈ rest, m ≤ x) (hmf : m ≤ f) :
    ∀ x ∈ List.orderedInsert (· ≤ ·) f rest, m ≤ x := by
  intro x hx
  rcases List.mem_cons.mp
      ((List.perm_orderedInsert _ f rest).mem_iff.mp hx) with rfl | hx2
  · exact hmf
  · exact hrest x hx2

lemma step2_comm {cs : List Nat} (hs : List.Sorted (· ≤ ·) cs) (f g : Nat) :
    step2 (List.orderedInsert (· ≤ ·) f cs) g =
      step2 (List.orderedInsert (· ≤ ·) g cs) f := by
  cases cs with
  | nil =>
    simp only [List.orderedInsert_nil, step2]
    rcases lt_trichotomy f g with h | h | h
    · rw [if_pos h, if_neg (not_lt.mpr h.le)]
    · subst h
      rfl
    · rw [if_neg (not_lt.mpr h.le), if_pos h]
  | cons c cs₀ =>
    have hs₀ := (List.sorted_cons.mp hs).2
    by_cases hfc : f ≤ c
    · by_cases hgc : g ≤ c
      · simp only [List.orderedInsert, if_pos hfc, if_pos hgc, step2]
        rcases lt_trichotomy f g with h | h | h
        · rw [if_pos h, if_neg (not_lt.mpr h.le)]
        · subst h
          rfl
        · rw [if_neg (not_lt.mpr h.le), if_pos h]
      · have hcg : c < g := not_le.mp hgc
        have hfg : f < g := lt_of_le_of_lt hfc hcg
        simp only [List.orderedInsert, if_pos hfc, if_neg hgc, step2]
        rw [if_pos hfg, if_neg (not_lt.mpr hfc)]
    · by_cases hgc : g ≤ c
      · have hcf : c < f := not_le.mp hfc
        have hgf : g < f := lt_of_le_of_lt hgc hcf
        simp only [List.orderedInsert, if_neg hfc, if_pos hgc, step2]
        rw [if_neg (not_lt.mpr hgc), if_pos hgf]
      · have hcf : c < f := not_le.mp hfc
        have hcg : c < g := not_le.mp hgc
        simp only [List.orderedInsert, if_neg hfc, if_neg hgc, step2]
        rw [if_pos hcg, if_pos hcf]
        exact orderedInsert_comm hs₀ g f

lemma countStep_comm {k : Int} {cs : List Nat}
    (hs : List.Sorted (· ≤ ·) cs) (f g : Nat) :
    countStep k (countStep k cs f) g = countStep k (countStep k cs g) f := by
  by_cases hn : (cs.length : Int) < k
  · rw [countStep_of_lt hn, countStep_of_lt hn]
    by_cases hn1 : ((cs.length + 1 : Nat) : Int) < k
    · have hlf : ((List.orderedInsert (· ≤ ·) f cs).length : Int) < k := by
        rw [List.orderedInsert_length]
        exact_mod_cast hn1
      have hlg : ((List.orderedInsert (· ≤ ·) g cs).length : Int) < k := by
        rw [List.orderedInsert_length]
        exact_mod_cast hn1
      rw [countStep_of_lt hlf, countStep_of_lt hlg]
      exact orderedInsert_comm hs g f
    · have hlf : ¬ ((List.orderedInsert (· ≤ ·) f cs).length : Int) < k := by
        rw [List.orderedInsert_length]
        exact_mod_cast hn1
      have hlg : ¬ ((List.orderedInsert (· ≤ ·) g cs).length : Int) < k := by
        rw [List.orderedInsert_length]
        exact_mod_cast hn1
      rw [countStep_of_ge hlf, countStep_of_ge hlg]
      exact step2_comm hs f g
  · rw [countStep_of_ge hn, countStep_of_ge hn]
    cases cs with
    | nil =>
      rw [show step2 ([] : List Nat) f = [] from rfl,
        show step2 ([] : List Nat) g = [] from rfl,
        countStep_of_ge hn, countStep_of_ge hn]
      rfl
    | cons m rest =>
      have hlen : ∀ x : Nat, ¬ (((step2 (m :: rest) x).length : Int) < k) := by
        intro x
        rw [step2_length]
        exact hn
      rw [countStep_of_ge (hlen f), countStep_of_ge (hlen g)]
      have hc := (List.sorted_cons.mp hs).1
      have hs₀ := (List.sorted_cons.mp hs).2
      by_cases hf : m < f
      · by_cases hg : m < g
        · rw [show step2 (m :: rest) f = List.orderedInsert (· ≤ ·) f rest from
              by simp only [step2]; rw [if_pos hf],
            show step2 (m :: rest) g = List.orderedInsert (· ≤ ·) g rest from
              by simp only [step2]; rw [if_pos hg]]
          exact step2_comm hs₀ f g
        · have h1 : step2 (m :: rest) f = List.orderedInsert (· ≤ ·) f rest := by
            simp only [step2]
            rw [if_pos hf]
          have h2 : step2 (m :: rest) g = m :: rest := by
            simp only [step2]
            rw [if_neg hg]
          rw [h1, h2, h1]
          rcases hcons : List.orderedInsert (· ≤ ·) f rest with _ | ⟨m₁, t₁⟩
          · rfl
          · have hm₁ : m ≤ m₁ := by
              have hall := le_all_orderedInsert hc hf.le m₁
              rw [hcons] at hall
              exact hall (List.mem_cons_self _ _)
            simp only [step2]
            rw [if_neg (not_lt.mpr (le_trans (not_lt.mp hg) hm₁))]
      · by_cases hg : m < g
        · have h1 : step2 (m :: rest) f = m :: rest := by
            simp only [step2]
            rw [if_neg hf]
          have h2 : step2 (m :: rest) g = List.orderedInsert (· ≤ ·) g rest := by
            simp only [step2]
            rw [if_pos hg]
          rw [h1, h2]
          rcases hcons : List.orderedInsert (· ≤ ·) g rest with _ | ⟨m₁, t₁⟩
          · rfl
          · have hm₁ : m ≤ m₁ := by
              have hall := le_all_orderedInsert hc hg.le m₁
              rw [hcons] at hall
              exact hall (List.mem_cons_self _ _)
            simp only [step2]
            rw [if_neg (not_lt.mpr (le_trans (not_lt.mp hf) hm₁))]
        · have h1 : step2 (m :: rest) f = m :: rest := by
            simp only [step2]
            rw [if_neg hf]
          have h2 : step2 (m :: rest) g = m :: rest := by
            simp only [step2]
            rw [if_neg hg]
          rw [h1, h2, h1]

lemma foldl_countStep_perm (k : Int) {cs₁ cs₂ : List Nat}
    (hperm : cs₁.Perm cs₂) :
    ∀ acc : List Nat, List.Sorted (· ≤ ·) acc →
      cs₁.foldl (countStep k) acc = cs₂.foldl (countStep k) acc := by
  induction hperm with
  | nil =>
    intro acc _
    rfl
  | cons x h ih =>
    intro acc hacc
    rw [List.foldl_cons, List.foldl_cons]
    exact ih _ (countStep_sorted hacc)
  | swap x y l =>
    intro acc hacc
    rw [List.foldl_cons, List.foldl_cons, List.foldl_cons, List.foldl_cons,
      countStep_comm hacc y x]
  | trans h₁ h₂ ih₁ ih₂ =>
    intro acc hacc
    exact (ih₁ acc hacc).trans (ih₂ acc hacc)

/-- C6: running `k_most_frequent_words_minheap` twice on the same frequency
mapping and `k` yields identical multisets of counts — even if the two runs
see the mapping in different iteration orders, which is the only way two
runs of this deterministic function could differ. -/
theorem c6_count_multiset_deterministic (F₁ F₂ : List (String × Nat))
    (k : Int) (hperm : F₁.Perm F₂) :
    (((k_most_frequent_words_minheap F₁ k).map Prod.snd : List Nat) :
        Multiset Nat) =
      (((k_most_frequent_words_minheap F₂ k).map Prod.snd : List Nat) :
        Multiset Nat) := by
  suffices h : (k_most_frequent_words_minheap F₁ k).map Prod.snd =
      (k_most_frequent_words_minheap F₂ k).map Prod.snd by rw [h]
  by_cases hk : k ≤ 0
  · simp [k_most_frequent_words_minheap, hk]
  · rw [k_most_frequent_words_minheap, if_neg hk,
      k_most_frequent_words_minheap, if_neg hk,
      List.map_reverse, List.map_reverse, List.map_map, List.map_map]
    have hcomp : (Prod.snd ∘ fun e : HeapEntry => (e.2, e.1)) = Prod.fst := by
      funext e
      rfl
    rw [hcomp, map_fst_foldl k F₁ [] List.sorted_nil,
      map_fst_foldl k F₂ [] List.sorted_nil, List.map_nil,
      foldl_countStep_perm k (hperm.map Prod.snd) [] List.sorted_nil]

theorem c6_witness :
    (List.Perm [(("a" : String), (1 : Nat)), ("b", 2)] [("b", 2), ("a", 1)]) ∧
      (((k_most_frequent_words_minheap [("a", 1), ("b", 2)] 1).map
          Prod.snd : List Nat) : Multiset Nat) =
        (((k_most_frequent_words_minheap [("b", 2), ("a", 1)] 1).map
          Prod.snd : List Nat) : Multiset Nat) :=
  ⟨by decide, c6_count_multiset_deterministic [("a", 1), ("b", 2)]
    [("b", 2), ("a", 1)] 1 (by decide)⟩


/-- C1: for every frequency mapping `F` and `k > 0`, every count in the
result of `k_most_frequent_words_minheap` is at least every count of a token
of `F` that is excluded from the result. -/
theorem c1_result_counts_dominate_excluded (F : List (String × Nat)) (k : Int)
    (hk : 0 < k) :
    ∀ p ∈ k_most_frequent_words_minheap F k, ∀ q ∈ F,
      (∀ r ∈ k_most_frequent_words_minheap F k, r.1 ≠ q.1) → q.2 ≤ p.2 := by
  intro p hp q hq hexcl
  have hne : ¬ k ≤ 0 := not_le.mpr hk
  have hinv := foldl_estab_inOrSmall k F [] List.sorted_nil q hq
  rcases hinv with hmem | ⟨_, hall⟩
  · exact absurd rfl
      (hexcl (q.1, q.2) ((mem_result_iff hne (q.1, q.2)).mpr hmem))
  · exact hall (p.2, p.1) ((mem_result_iff hne p).mp hp)

theorem c1_witness :
    ((0 : Int) < 1 ∧
        ("a", (5 : Nat)) ∈ k_most_frequent_words_minheap [("a", 5), ("b", 1)] 1 ∧
        (("b" : String), (1 : Nat)) ∈ [(("a" : String), (5 : Nat)), ("b", 1)] ∧
        (∀ r ∈ k_most_frequent_words_minheap [("a", 5), ("b", 1)] 1,
          r.1 ≠ "b")) ∧
      (1 : Nat) ≤ 5 :=
  ⟨⟨by decide, by decide, by decide, by decide⟩,
    c1_result_counts_dominate_excluded [("a", 5), ("b", 1)] 1 (by decide)
      ("a", 5) (by decide) ("b", 1) (by decide) (by decide)⟩

/-! ### Claim C7: token normalization -/

/-- C7: `clean_word` deletes every character outside `[a-zA-Z]` and
lowercases the remainder; `read_words_from_file` keeps exactly the non-empty
normalizations, so every token it outputs is non-empty. -/
theorem c7_normalization_and_nonempty_tokens :
    (∀ w : String, (clean_word w).data =
        (w.data.filter fun c =>
          decide (('a' ≤ c ∧ c ≤ 'z') ∨ ('A' ≤ c ∧ c ≤ 'Z'))).map
          Char.toLower) ∧
      (∀ ws : List String, read_words_from_file ws =
        (ws.map clean_word).filter (fun t => decide (t ≠ ""))) ∧
      (∀ ws : List String, ∀ t ∈ read_words_from_file ws, t ≠ "") := by
  have hpred : (fun c => isEnglishLetter c) = (fun c : Char =>
      decide (('a' ≤ c ∧ c ≤ 'z') ∨ ('A' ≤ c ∧ c ≤ 'Z'))) := by
    funext c
    simp [isEnglishLetter]
  refine ⟨?_, ?_, ?_⟩
  · intro w
    rw [clean_word, ← hpred]
  · intro ws
    induction ws with
    | nil => rfl
    | cons w ws ih =>
      by_cases hw : clean_word w = ""
      · simp [read_words_from_file, hw, ih]
      · simp [read_words_from_file, hw, ih]
  · intro ws
    induction ws with
    | nil =>
      intro t ht
      exact absurd ht (List.not_mem_nil t)
    | cons w ws ih =>
      intro t ht
      by_cases hw : clean_word w = ""
      · rw [read_words_from_file, if_pos hw] at ht
        exact ih t ht
      · rw [read_words_from_file, if_neg hw] at ht
        rcases List.mem_cons.mp ht with rfl | ht2
        · exact hw
        · exact ih t ht2

theorem c7_witness :
    ("a" ∈ read_words_from_file ["a1", "!!"]) ∧ ("a" : String) ≠ "" :=
  ⟨by decide,
    c7_normalization_and_nonempty_tokens.2.2 ["a1", "!!"] "a" (by decide)⟩

end CountWords

namespace Dinosaur

/-! ### Claim C8 (corrected) -/

/-- C8 as stated is false for `read_csv_to_dict`: a row missing the key
column is not skipped; the loader aborts with `KeyError` and the following
rows are never loaded. -/
theorem c8_counterexample_read_csv_aborts :
    ¬ ∃ d : List (String × Row),
        read_csv_to_dict [[("STANCE", "bipedal")], [("NAME", "Trex")]]
          "NAME" = Except.ok d := by
  rintro ⟨d, hd⟩
  rw [show read_csv_to_dict [[("STANCE", "bipedal")], [("NAME", "Trex")]]
      "NAME" = Except.error "NAME" from rfl] at hd
  exact Except.noConfusion hd

/-- C8 amended: in `DinosaurSpeedCalculator.load_dataset1` and
`load_dataset2` (dinosaur.py), each loader independently skips (with a
warning) a row that fails that loader's own requirements — a missing
required column or an unparsable numeric field — and the rows before and
after it are loaded exactly as if it were absent; the `read_csv_to_dict`
loader of dinosaur_interview.py performs no such validation and aborts on a
row missing the key column. -/
theorem c8_amended_bad_rows_skipped {α : Type}
    (parseFloat : String → Option α) (pre post : List Row) (bad : Row) :
    (parseRow1 parseFloat bad = none →
        load_dataset1 parseFloat (pre ++ bad :: post) =
          load_dataset1 parseFloat pre ++ load_dataset1 parseFloat post) ∧
      (parseRow2 parseFloat bad = none →
        load_dataset2 parseFloat (pre ++ bad :: post) =
          load_dataset2 parseFloat pre ++ load_dataset2 parseFloat post) := by
  constructor
  · intro h1
    rw [load_dataset1, load_dataset1, load_dataset1, List.filterMap_append,
      List.filterMap_cons, h1]
  · intro h2
    rw [load_dataset2, load_dataset2, load_dataset2, List.filterMap_append,
      List.filterMap_cons, h2]

theorem c8_witness :
    ((parseRow1 (fun s : String => some s)
        [("NAME", "X"), ("STRIDE_LENGTH", "5"), ("STANCE", "bipedal")] =
          none ∧
      load_dataset1 (fun s : String => some s)
          ([[("NAME", "A"), ("LEG_LENGTH", "2"), ("DIET", "x")]] ++
            [("NAME", "X"), ("STRIDE_LENGTH", "5"), ("STANCE", "bipedal")] ::
            [[("NAME", "B"), ("STRIDE_LENGTH", "7"), ("STANCE", "quad")]]) =
        load_dataset1 (fun s : String => some s)
            [[("NAME", "A"), ("LEG_LENGTH", "2"), ("DIET", "x")]] ++
          load_dataset1 (fun s : String => some s)
            [[("NAME", "B"), ("STRIDE_LENGTH", "7"), ("STANCE", "quad")]]) ∧
      (parseRow2 (fun s : String => some s)
        [("NAME", "Y"), ("LEG_LENGTH", "2"), ("DIET", "meat")] = none ∧
      load_dataset2 (fun s : String => some s)
          ([[("NAME", "A"), ("LEG_LENGTH", "2"), ("DIET", "x")]] ++
            [("NAME", "Y"), ("LEG_LENGTH", "2"), ("DIET", "meat")] ::
            [[("NAME", "B"), ("STRIDE_LENGTH", "7"), ("STANCE", "quad")]]) =
        load_dataset2 (fun s : String => some s)
            [[("NAME", "A"), ("LEG_LENGTH", "2"), ("DIET", "x")]] ++
          load_dataset2 (fun s : String => some s)
            [[("NAME", "B"), ("STRIDE_LENGTH", "7"), ("STANCE", "quad")]])) :=
  ⟨⟨by decide,
      (c8_amended_bad_rows_skipped (fun s : String => some s)
        [[("NAME", "A"), ("LEG_LENGTH", "2"), ("DIET", "x")]]
        [[("NAME", "B"), ("STRIDE_LENGTH", "7"), ("STANCE", "quad")]]
        [("NAME", "X"), ("STRIDE_LENGTH", "5"), ("STANCE", "bipedal")]).1
        (by decide)⟩,
    ⟨by decide,
      (c8_amended_bad_rows_skipped (fun s : String => some s)
        [[("NAME", "A"), ("LEG_LENGTH", "2"), ("DIET", "x")]]
        [[("NAME", "B"), ("STRIDE_LENGTH", "7"), ("STANCE", "quad")]]
        [("NAME", "Y"), ("LEG_LENGTH", "2"), ("DIET", "meat")]).2
        (by decide)⟩⟩

/-! ### Claim C10 -/

lemma lookup_cons_isSome {p name : String} {row1 : Row}
    {rest : List (String × Row)}
    (h : (List.lookup p rest).isSome) :
    (List.lookup p ((name, row1) :: rest)).isSome := by
  by_cases he : (p == name) = true
  · simp [List.lookup, he]
  · simp [List.lookup, he, h]

lemma collect_bipedal_mem {α β : Type} (parseFloat : String → Option α)
    (speed_of : α → α → β) (d2 : List (String × Row)) :
    ∀ (d1 : List (String × Row)) (out : List (String × β)),
      collect_bipedal parseFloat speed_of d2 d1 = Except.ok out →
      ∀ p ∈ out,
        (List.lookup p.1 d1).isSome ∧
          ∃ row2, List.lookup p.1 d2 = some row2 ∧
            ∃ st, List.lookup "STANCE" row2 = some st ∧
              str_lower st = "bipedal"
  | [], out, hout => by
    have hnil : ([] : List (String × β)) = out := by injection hout
    subst hnil
    intro p hp
    exact absurd hp (List.not_mem_nil p)
  | (name, row1) :: rest, out, hout => by
    intro p hp
    rcases hlk : List.lookup name d2 with _ | row2
    · have hout2 : collect_bipedal parseFloat speed_of d2 rest =
          Except.ok out := by
        simpa only [collect_bipedal, hlk] using hout
      have hrec := collect_bipedal_mem parseFloat speed_of d2 rest out hout2
        p hp
      exact ⟨lookup_cons_isSome hrec.1, hrec.2⟩
    · rcases hleg : List.lookup "LEG_LENGTH" row1 with _ | legStr
      · simp only [collect_bipedal, hlk, hleg] at hout
        exact Except.noConfusion hout
      · rcases hpf : parseFloat legStr with _ | leg
        · simp only [collect_bipedal, hlk, hleg, hpf] at hout
          exact Except.noConfusion hout
        · rcases hstr : List.lookup "STRIDE_LENGTH" row2 with _ | strideStr
          · simp only [collect_bipedal, hlk, hleg, hpf, hstr] at hout
            exact Except.noConfusion hout
          · rcases hpf2 : parseFloat strideStr with _ | stride
            · simp only [collect_bipedal, hlk, hleg, hpf, hstr, hpf2] at hout
              exact Except.noConfusion hout
            · rcases hst : List.lookup "STANCE" row2 with _ | stance
              · simp only [collect_bipedal, hlk, hleg, hpf, hstr, hpf2,
                  hst] at hout
                exact Except.noConfusion hout
              · rcases hcb : collect_bipedal parseFloat speed_of d2 rest
                    with e | tail
                · simp only [collect_bipedal, hlk, hleg, hpf, hstr, hpf2,
                    hst, hcb] at hout
                  exact Except.noConfusion hout
                · simp only [collect_bipedal, hlk, hleg, hpf, hstr, hpf2,
                    hst, hcb] at hout
                  have hbody : (if str_lower stance = "bipedal" then
                      (name, speed_of leg stride) :: tail else tail) = out := by
                    injection hout
                  by_cases hbip : str_lower stance = "bipedal"
                  · rw [if_pos hbip] at hbody
                    subst hbody
                    rcases List.mem_cons.mp hp with rfl | htail
                    · refine ⟨?_, row2, hlk, stance, hst, hbip⟩
                      simp [List.lookup]
                    · have hrec := collect_bipedal_mem parseFloat speed_of d2
                        rest tail hcb p htail
                      exact ⟨lookup_cons_isSome hrec.1, hrec.2⟩
                  · rw [if_neg hbip] at hbody
                    subst hbody
                    have hrec := collect_bipedal_mem parseFloat speed_of d2
                      rest tail hcb p hp
                    exact ⟨lookup_cons_isSome hrec.1, hrec.2⟩

/-- C10: `solve_dinosaur_problem` performs an inner join on NAME: every name
in the returned list appears in both tables (the name-keyed dicts built from
the two CSVs), with a dataset-2 stance that case-insensitively equals
`"bipedal"`; consequently a dinosaur name appearing in only one of the two
tables never appears in the returned list. -/
theorem c10_inner_join_bipedal {α β : Type} [LinearOrder β]
    (parseFloat : String → Option α) (speed_of : α → α → β)
    (rows1 rows2 : List Row) (d1 d2 : List (String × Row))
    (res : List String)
    (h1 : read_csv_to_dict rows1 "NAME" = Except.ok d1)
    (h2 : read_csv_to_dict rows2 "NAME" = Except.ok d2)
    (hs : solve_dinosaur_problem parseFloat speed_of rows1 rows2 =
      Except.ok res) :
    ∀ name ∈ res,
      (List.lookup name d1).isSome ∧
        ∃ row2, List.lookup name d2 = some row2 ∧
          ∃ st, List.lookup "STANCE" row2 = some st ∧
            str_lower st = "bipedal" := by
  intro name hname
  simp only [solve_dinosaur_problem, h1, h2] at hs
  rcases hcol : collect_bipedal parseFloat speed_of d2 d1 with e | speeds
  · simp only [hcol] at hs
    exact Except.noConfusion hs
  · simp only [hcol] at hs
    have hres : (List.insertionSort (fun x y : String × β => y.2 ≤ x.2)
        speeds).map Prod.fst = res := by injection hs
    subst hres
    rcases List.mem_map.mp hname with ⟨p, hp, rfl⟩
    have hp2 : p ∈ speeds := (List.perm_insertionSort _ _).subset hp
    exact collect_bipedal_mem parseFloat speed_of d2 d1 speeds hcol p hp2

theorem c10_witness :
    (read_csv_to_dict [[("NAME", "Trex"), ("LEG_LENGTH", "3"),
          ("DIET", "meat")]] "NAME" =
        Except.ok [("Trex", [("NAME", "Trex"), ("LEG_LENGTH", "3"),
          ("DIET", "meat")])] ∧
      read_csv_to_dict [[("NAME", "Trex"), ("STRIDE_LENGTH", "7"),
          ("STANCE", "Bipedal")]] "NAME" =
        Except.ok [("Trex", [("NAME", "Trex"), ("STRIDE_LENGTH", "7"),
          ("STANCE", "Bipedal")])] ∧
      solve_dinosaur_problem (fun s => some s) (fun a b : String => a ++ b)
          [[("NAME", "Trex"), ("LEG_LENGTH", "3"), ("DIET", "meat")]]
          [[("NAME", "Trex"), ("STRIDE_LENGTH", "7"),
            ("STANCE", "Bipedal")]] =
        Except.ok ["Trex"] ∧
      "Trex" ∈ ["Trex"]) ∧
      ((List.lookup "Trex" [("Trex", [("NAME", "Trex"), ("LEG_LENGTH", "3"),
          ("DIET", "meat")])]).isSome ∧
        ∃ row2, List.lookup "Trex" [("Trex", [("NAME", "Trex"),
            ("STRIDE_LENGTH", "7"), ("STANCE", "Bipedal")])] = some row2 ∧
          ∃ st, List.lookup "STANCE" row2 = some st ∧
            str_lower st = "bipedal") :=
  ⟨⟨rfl, rfl, rfl, by decide⟩,
    c10_inner_join_bipedal (fun s => some s) (fun a b : String => a ++ b)
      [[("NAME", "Trex"), ("LEG_LENGTH", "3"), ("DIET", "meat")]]
      [[("NAME", "Trex"), ("STRIDE_LENGTH", "7"), ("STANCE", "Bipedal")]]
      [("Trex", [("NAME", "Trex"), ("LEG_LENGTH", "3"), ("DIET", "meat")])]
      [("Trex", [("NAME", "Trex"), ("STRIDE_LENGTH", "7"),
        ("STANCE", "Bipedal")])]
      ["Trex"] rfl rfl rfl "Trex" (by decide)⟩

end Dinosaur
